import Mathlib

/-!
The program codeowners-json: an ownership report over a CODEOWNERS rule set.

A shallow embedding of `cmd/codeowners_json/main.go`.

* Go strings are Lean `String`s, Go slices are `List`s, a possibly-nil pointer is an `Option`,
  a `(value, error)` pair is an `Except`.
* The Go map `Users` is an association list with unique keys (`mapGet`, `mapSet`).
* The manifest package (`Owner`, `Rule`, `Ruleset.Match`) and the directory walker are imported
  by `main.go`; they are modelled from the specification or taken as parameters, and every such
  definition says so.
-/

namespace CodeownersJson

/-! ## Strings -/

/-- Go strings. -/
abbrev GoString := String

/-- Go `strings.TrimLeft(s, cutset)`: `s` without its longest leading run of characters that
occur in `cutset`. -/
def trimLeft (s cutset : String) : String :=
  ⟨s.data.dropWhile (fun c => cutset.data.contains c)⟩

/-- The string `s` with one leading `@` removed when it has one (the other strings unchanged). -/
def stripOneAt (s : String) : String :=
  match s.data with
  | '@' :: rest => ⟨rest⟩
  | _ => s

/-! ## Data model -/

/-- Modelled from the spec: the owner type of the imported manifest package is not part of the
sources. An owner is an opaque string token (`@user`, `@org/team` or `email@domain`); `String`
is the token as written and `Value` is the token with a leading `@` stripped, the form the
filter comparison uses. -/
structure Owner where
  token : String
  deriving DecidableEq, Repr

/-- The field `o.Value` of an owner: its token with a leading `@` stripped. -/
def Owner.Value (o : Owner) : String := stripOneAt o.token

/-- The string form `o.String()` of an owner: its token. -/
def Owner.String (o : Owner) : GoString := o.token

/-- Modelled from the spec: the rule type of the imported manifest package is not part of the
sources. A rule is a raw pattern, the matcher compiled from it (a predicate on normalized
paths) and an ordered owner list. -/
structure Rule where
  pattern : String
  matcher : String → Bool
  Owners : List Owner

/-- The raw pattern `rule.RawPattern()` of a rule. -/
def Rule.RawPattern (r : Rule) : String := r.pattern

/-- A rule set is the ordered sequence of rules, in manifest order. -/
abbrev Ruleset := List Rule

/-- Modelled from the spec: `Ruleset.Match` of the imported manifest package is not part of the
sources. The path is normalized to root-relative form (`normalize`, which fails for a path
outside the manifest root: an input error); the rule store is then scanned in reverse manifest
order and the first rule whose matcher accepts the normalized path is returned, `none` when no
rule matches. -/
def Ruleset.Match (normalize : String → Option String) (ruleset : Ruleset) (path : String) :
    Except String (Option Rule) :=
  match normalize path with
  | none => .error "path outside the manifest root"
  | some q => .ok (ruleset.reverse.find? (fun r => r.matcher q))

/-- The Go struct `File`. -/
structure File where
  Name : String
  Owners : List String
  deriving DecidableEq, Repr

/-- The Go struct `JsonResponse`; the map `Users` is an association list with unique keys. -/
structure JsonResponse where
  Users : List (String × List String)
  OwnedFiles : List File
  Unowned : List String
  deriving DecidableEq, Repr

/-- Map read `m[k]`: the stored slice, the nil (empty) slice for a missing key. -/
def mapGet (m : List (String × List String)) (k : String) : List String :=
  (m.lookup k).getD []

/-- Map write `m[k] = v`: replaces the entry of an existing key, adds an entry otherwise. -/
def mapSet (m : List (String × List String)) (k : String) (v : List String) :
    List (String × List String) :=
  if m.any (fun e => e.1 == k) then m.map (fun e => if e.1 == k then (k, v) else e)
  else m ++ [(k, v)]

/-- The function `NewJsonResponse`: an empty map, nil slices. -/
def NewJsonResponse : JsonResponse :=
  { Users := [], OwnedFiles := [], Unowned := [] }

/-! ## getFileOwners -/

/-- The inner loop of `getFileOwners` (lines 143-148): `filterMatch` starts as
`len(ownerFilters) == 0` and is set by every filter equal to `o.Value`. -/
def filterMatch (ownerFilters : List String) (o : Owner) : Bool :=
  ownerFilters.foldl (fun m filter => if filter == o.Value then true else m)
    (ownerFilters.length == 0)

/-- The function `getFileOwners`: nil on a match error, a file without owners when no rule
matches, otherwise the string forms of the governing rule's owners that pass the filter. -/
def getFileOwners (normalize : String → Option String) (ruleset : Ruleset) (path : String)
    (ownerFilters : List String) : Option File :=
  match Ruleset.Match normalize ruleset path with
  | .error _ => none
  | .ok none => some { Name := path, Owners := [] }
  | .ok (some rule) =>
    some { Name := path,
           Owners := rule.Owners.foldl
             (fun owners o => if filterMatch ownerFilters o then owners ++ [o.String] else owners)
             [] }

/-! ## main -/

/-- The external collaborators of `main`: `isDir` is the function `isDir` (an `os.Stat` query)
and `walk root` is the sequence of `(path, isDirectory)` entries on which the directory walker
invokes the callback for `root`, in the order it does. -/
structure FileSystem where
  isDir : String → Bool
  walk : String → List (String × Bool)

/-- Lines 83-89 and 102-108 of `main`: a nil file changes nothing, a file with owners is
appended to `OwnedFiles`, a file without owners has its name appended to `Unowned`. -/
def recordFile (res : JsonResponse) (file : Option File) : JsonResponse :=
  match file with
  | none => res
  | some f =>
    if f.Owners.length > 0 then { res with OwnedFiles := res.OwnedFiles ++ [f] }
    else { res with Unowned := res.Unowned ++ [f.Name] }

/-- The walker callback of `main` (lines 94-111), as its effect on the report: the entry `.git`
is skipped, a directory changes nothing, a file is resolved and recorded. -/
def walkCallback (normalize : String → Option String) (ruleset : Ruleset)
    (ownerFilters : List String) (res : JsonResponse) (entry : String × Bool) : JsonResponse :=
  if entry.1 == ".git" then res
  else if !entry.2 then recordFile res (getFileOwners normalize ruleset entry.1 ownerFilters)
  else res

/-- Lines 63-67 of `main`: every owner of every rule, in manifest order, appends the rule's raw
pattern to the map entry of the owner's string form. -/
def buildUsers (ruleset : Ruleset) (users : List (String × List String)) :
    List (String × List String) :=
  ruleset.foldl
    (fun m rule => rule.Owners.foldl
      (fun m owner => mapSet m owner.String (mapGet m owner.String ++ [rule.RawPattern])) m)
    users

/-- One iteration of the loop over the start paths (lines 79-119) on the pair of the report and
the list of values printed so far: a start path that is not a directory is resolved and
recorded and the iteration ends there (`continue`); a directory is walked and the report is
then serialized and printed. -/
def mainStep (fs : FileSystem) (normalize : String → Option String) (ruleset : Ruleset)
    (ownerFilters : List String) (st : JsonResponse × List JsonResponse) (startPath : String) :
    JsonResponse × List JsonResponse :=
  if !fs.isDir startPath then
    (recordFile st.1 (getFileOwners normalize ruleset startPath ownerFilters), st.2)
  else
    let res := (fs.walk startPath).foldl (walkCallback normalize ruleset ownerFilters) st.1
    (res, st.2 ++ [res])

/-- Lines 74-77 of `main`: every owner filter loses its leading `@` characters. -/
def trimFilters (ownerFilters : List String) : List String :=
  ownerFilters.map (fun f => trimLeft f "@")

/-- The function `main` once the flags are parsed and the manifest is loaded: the final report
and the list of report values it printed, in order. `ownerFilters` are the `--owner` values and
`args` the positional arguments. -/
def main (fs : FileSystem) (normalize : String → Option String) (ruleset : Ruleset)
    (ownerFilters : List String) (args : List String) : JsonResponse × List JsonResponse :=
  let res := { NewJsonResponse with Users := buildUsers ruleset NewJsonResponse.Users }
  let paths := if args.length == 0 then args ++ ["."] else args
  let ownerFilters := trimFilters ownerFilters
  paths.foldl (mainStep fs normalize ruleset ownerFilters) (res, [])

/-! ## Reference notions used to state the properties -/

/-- The paths on which `main` calls `getFileOwners`, in call order: a start path that is not a
directory itself, and for a directory the walked entries that are not `.git` and not
directories. -/
def candidates (fs : FileSystem) (args : List String) : List String :=
  (if args.length == 0 then args ++ ["."] else args).flatMap (fun startPath =>
    if !fs.isDir startPath then [startPath]
    else ((fs.walk startPath).filter (fun e => !(e.1 == ".git") && !e.2)).map Prod.fst)

/-- The owner index as the specification words it: the raw patterns of the rules that list `s`
as an owner, in manifest order, one entry per occurrence of `s` in a rule's owner list. -/
def patternsOf (ruleset : Ruleset) (s : String) : List String :=
  ruleset.flatMap (fun r => (r.Owners.filter (fun o => o.String == s)).map (fun _ => r.RawPattern))

/-- The owner strings that occur in a rule set, in manifest order. -/
def ownerStrings (ruleset : Ruleset) : List String :=
  ruleset.flatMap (fun r => r.Owners.map Owner.String)

/-- The shape of the owner tokens of a loaded manifest (`@user`, `@org/team`, `email@domain`):
what follows the optional leading `@` does not start with another `@`. -/
def Owner.wellFormed (o : Owner) : Bool :=
  match o.Value.data with
  | '@' :: _ => false
  | _ => true

/-! ## Example inputs -/

/-- The catch-all rule `* @default`. -/
def ruleDefault : Rule :=
  { pattern := "*", matcher := fun _ => true, Owners := [⟨"@default"⟩] }

/-- The rule `*.go @go-owners dev@example.com`. -/
def ruleGo : Rule :=
  { pattern := "*.go", matcher := fun q => ".go".data.isSuffixOf q.data,
    Owners := [⟨"@go-owners"⟩, ⟨"dev@example.com"⟩] }

/-- The rule `/vendor/` with an empty owner list (explicitly unowned). -/
def ruleVendor : Rule :=
  { pattern := "/vendor/", matcher := fun q => "vendor/".data.isPrefixOf q.data, Owners := [] }

/-- An example manifest: `* @default`, `*.go @go-owners dev@example.com`, `/vendor/`. -/
def exRules : Ruleset := [ruleDefault, ruleGo, ruleVendor]

/-- An example manifest without a catch-all rule. -/
def exRulesGo : Ruleset := [ruleGo, ruleVendor]

/-- An example normalization: paths that leave the root (`../...`) are rejected. -/
def exNormalize (path : String) : Option String :=
  if "../".data.isPrefixOf path.data then none else some path

/-- An example tree: the directory `.` holding `.git`, `main.go`, `README.md` and
`vendor/lib.go`; every other path is not a directory. -/
def exFs : FileSystem :=
  { isDir := fun path => path == ".",
    walk := fun root =>
      if root == "." then
        [(".", true), (".git", true), ("main.go", false), ("README.md", false),
         ("vendor", true), ("vendor/lib.go", false)]
      else [] }

/-! ## Auxiliary lemmas: strings and the filter -/

theorem foldl_setFlag (v : String) (F : List String) (b : Bool) :
    F.foldl (fun m filter => if filter == v then true else m) b = (b || F.contains v) := by
  induction F generalizing b with
  | nil => simp
  | cons f F ih =>
    simp only [List.foldl_cons, ih, List.contains_cons]
    by_cases h : f = v
    · subst h; simp
    · have h2 : (v == f) = false := by simpa using fun e => h e.symm
      have h1 : (f == v) = false := by simpa using h
      simp [h1, h2]

theorem filterMatch_eq (F : List String) (o : Owner) :
    filterMatch F o = (F.isEmpty || F.contains o.Value) := by
  unfold filterMatch
  rw [foldl_setFlag]
  cases F <;> simp

theorem filterMatch_nil (o : Owner) : filterMatch [] o = true := by
  simp [filterMatch_eq]

theorem filterMatch_iff (F : List String) (o : Owner) :
    filterMatch F o = true ↔ F = [] ∨ o.Value ∈ F := by
  rw [filterMatch_eq]
  cases F <;> simp

theorem foldl_keep {α β : Type} (P : α → Bool) (g : α → β) (os : List α) (acc : List β) :
    os.foldl (fun owners o => if P o then owners ++ [g o] else owners) acc
      = acc ++ (os.filter P).map g := by
  induction os generalizing acc with
  | nil => simp
  | cons o os ih =>
    simp only [List.foldl_cons, ih, List.filter_cons]
    by_cases h : P o = true <;> simp [h]

theorem getFileOwners_error (normalize : String → Option String) (R : Ruleset) (p : String)
    (F : List String) (e : String) (h : Ruleset.Match normalize R p = .error e) :
    getFileOwners normalize R p F = none := by
  simp [getFileOwners, h]

theorem getFileOwners_none (normalize : String → Option String) (R : Ruleset) (p : String)
    (F : List String) (h : Ruleset.Match normalize R p = .ok none) :
    getFileOwners normalize R p F = some { Name := p, Owners := [] } := by
  simp [getFileOwners, h]

theorem getFileOwners_some (normalize : String → Option String) (R : Ruleset) (p : String)
    (F : List String) (r : Rule) (h : Ruleset.Match normalize R p = .ok (some r)) :
    getFileOwners normalize R p F
      = some { Name := p, Owners := (r.Owners.filter (filterMatch F)).map Owner.String } := by
  simp [getFileOwners, h, foldl_keep]

theorem getFileOwners_name (normalize : String → Option String) (R : Ruleset) (p : String)
    (F : List String) (f : File) (h : getFileOwners normalize R p F = some f) : f.Name = p := by
  unfold getFileOwners at h
  split at h
  · simp at h
  · simp at h; rw [← h]
  · simp at h; rw [← h]

theorem getFileOwners_isSome (normalize : String → Option String) (R : Ruleset) (p : String)
    (F : List String) :
    (getFileOwners normalize R p F).isSome = (Ruleset.Match normalize R p).isOk := by
  unfold getFileOwners
  split <;> rename_i h <;> simp [h, Except.isOk, Except.toBool]

/-! ## Auxiliary lemmas: the report -/

theorem recordFile_users (res : JsonResponse) (file : Option File) :
    (recordFile res file).Users = res.Users := by
  unfold recordFile
  split
  · rfl
  · split <;> rfl

theorem walk_foldl (normalize : String → Option String) (R : Ruleset) (F : List String)
    (entries : List (String × Bool)) (res : JsonResponse) :
    entries.foldl (walkCallback normalize R F) res
      = (((entries.filter (fun e => !(e.1 == ".git") && !e.2)).map Prod.fst).foldl
          (fun res p => recordFile res (getFileOwners normalize R p F)) res) := by
  induction entries generalizing res with
  | nil => rfl
  | cons e es ih =>
    simp only [List.foldl_cons, List.filter_cons]
    rw [ih]
    unfold walkCallback
    by_cases h1 : (e.1 == ".git") = true
    · simp [h1]
    · by_cases h2 : e.2 = true
      · simp [h1, h2]
      · simp [h1, h2]

theorem mainStep_foldl_fst (fs : FileSystem) (normalize : String → Option String) (R : Ruleset)
    (F : List String) (paths : List String) (st : JsonResponse × List JsonResponse) :
    (paths.foldl (mainStep fs normalize R F) st).1
      = ((paths.flatMap (fun startPath =>
            if !fs.isDir startPath then [startPath]
            else ((fs.walk startPath).filter (fun e => !(e.1 == ".git") && !e.2)).map Prod.fst)).foldl
          (fun res p => recordFile res (getFileOwners normalize R p F)) st.1) := by
  induction paths generalizing st with
  | nil => rfl
  | cons sp ps ih =>
    simp only [List.foldl_cons, List.flatMap_cons, List.foldl_append]
    rw [ih]
    congr 1
    unfold mainStep
    by_cases h : fs.isDir sp = true
    · simp [h, walk_foldl]
    · simp [h]

theorem recordFile_foldl (normalize : String → Option String) (R : Ruleset) (F : List String)
    (cs : List String) (res : JsonResponse) :
    cs.foldl (fun res p => recordFile res (getFileOwners normalize R p F)) res
      = { Users := res.Users,
          OwnedFiles := res.OwnedFiles ++ cs.filterMap (fun p =>
            (getFileOwners normalize R p F).filter (fun f => !f.Owners.isEmpty)),
          Unowned := res.Unowned ++ cs.filter (fun p =>
            (getFileOwners normalize R p F).any (fun f => f.Owners.isEmpty)) } := by
  induction cs generalizing res with
  | nil => simp
  | cons c cs ih =>
    simp only [List.foldl_cons]
    rw [ih]
    cases hg : getFileOwners normalize R c F with
    | none => simp [recordFile, hg, Option.filter]
    | some f =>
      have hn := getFileOwners_name normalize R c F f hg
      cases ho : f.Owners with
      | nil => simp [recordFile, hg, Option.filter, ho, hn, List.filter_cons]
      | cons a as => simp [recordFile, hg, Option.filter, ho, List.filter_cons]

theorem main_fst (fs : FileSystem) (normalize : String → Option String) (R : Ruleset)
    (F args : List String) :
    (main fs normalize R F args).1
      = { Users := buildUsers R [],
          OwnedFiles := (candidates fs args).filterMap (fun p =>
            (getFileOwners normalize R p (trimFilters F)).filter (fun f => !f.Owners.isEmpty)),
          Unowned := (candidates fs args).filter (fun p =>
            (getFileOwners normalize R p (trimFilters F)).any (fun f => f.Owners.isEmpty)) } := by
  unfold main
  simp only [mainStep_foldl_fst, recordFile_foldl]
  simp [NewJsonResponse, candidates]

/-! ## Auxiliary lemmas: the map of users -/

theorem lookup_map_replace (m : List (String × List String)) (k k' : String) (v : List String) :
    List.lookup k' (m.map (fun e => if e.1 == k then (k, v) else e))
      = if k' = k then (if m.any (fun e => e.1 == k) then some v else none)
        else List.lookup k' m := by
  induction m with
  | nil => simp
  | cons e m ih =>
    obtain ⟨a, b⟩ := e
    simp only [List.map_cons, List.any_cons]
    by_cases hak : a = k
    · subst hak
      by_cases hk : k' = a
      · subst hk; simp [List.lookup_cons]
      · have h2 : (k' == a) = false := by simpa using hk
        simp only [beq_self_eq_true, if_true, List.lookup_cons, h2, ih, if_neg hk]
    · have h1 : (a == k) = false := by simpa using hak
      simp only [h1, Bool.false_eq_true, if_false, Bool.false_or, List.lookup_cons]
      by_cases hk : k' = a
      · subst hk
        simp [hak]
      · have h2 : (k' == a) = false := by simpa using hk
        simp only [h2, ih]

theorem lookup_append_single (m : List (String × List String)) (k k' : String) (v : List String)
    (hno : m.any (fun e => e.1 == k) = false) :
    List.lookup k' (m ++ [(k, v)]) = if k' = k then some v else List.lookup k' m := by
  induction m with
  | nil => 
    by_cases hk : k' = k
    · subst hk; simp [List.lookup_cons]
    · have : (k' == k) = false := by simpa using hk
      simp [List.lookup_cons, this, hk]
  | cons e m ih =>
    obtain ⟨a, b⟩ := e
    simp only [List.any_cons, Bool.or_eq_false_iff] at hno
    have hak : ¬ a = k := by simpa using hno.1
    simp only [List.cons_append, List.lookup_cons, ih hno.2]
    by_cases hk : k' = a
    · subst hk; simp [hak]
    · have : (k' == a) = false := by simpa using hk
      simp [this]

theorem lookup_mapSet (m : List (String × List String)) (k k' : String) (v : List String) :
    List.lookup k' (mapSet m k v) = if k' = k then some v else List.lookup k' m := by
  unfold mapSet
  by_cases h : m.any (fun e => e.1 == k) = true
  · rw [if_pos h, lookup_map_replace, if_pos h]
  · rw [if_neg h, lookup_append_single _ _ _ _ (Bool.eq_false_iff.mpr h)]
theorem mapSet_keys_nodup (m : List (String × List String)) (k : String) (v : List String)
    (h : (m.map Prod.fst).Nodup) : ((mapSet m k v).map Prod.fst).Nodup := by
  unfold mapSet
  by_cases hany : m.any (fun e => e.1 == k) = true
  · rw [if_pos hany]
    have : (m.map (fun e => if e.1 == k then (k, v) else e)).map Prod.fst = m.map Prod.fst := by
      rw [List.map_map]
      apply List.map_congr_left
      intro e _
      by_cases he : e.1 = k
      · simp [he]
      · simp [he]
    rw [this]; exact h
  · rw [if_neg hany]
    rw [List.map_append, List.nodup_append]
    refine ⟨h, by simp, ?_⟩
    simp only [List.map_cons, List.map_nil, List.disjoint_singleton]
    intro hmem
    apply hany
    rw [List.any_eq_true]
    obtain ⟨e, he, hek⟩ := List.mem_map.mp hmem
    exact ⟨e, he, by simpa using hek⟩

theorem mapGet_step (m : List (String × List String)) (o : Owner) (pat s : String) :
    mapGet (mapSet m o.String (mapGet m o.String ++ [pat])) s
      = mapGet m s ++ (if o.String == s then [pat] else []) := by
  unfold mapGet
  rw [lookup_mapSet]
  by_cases h : s = o.String
  · subst h; simp
  · have : (o.String == s) = false := by simpa using fun e => h e.symm
    simp [h, this]

theorem isSome_step (m : List (String × List String)) (o : Owner) (pat s : String) :
    (List.lookup s (mapSet m o.String (mapGet m o.String ++ [pat]))).isSome
      = ((List.lookup s m).isSome || o.String == s) := by
  rw [lookup_mapSet]
  by_cases h : s = o.String
  · subst h; simp
  · have : (o.String == s) = false := by simpa using fun e => h e.symm
    simp [h, this]

theorem mapGet_owners (os : List Owner) (pat s : String) (m : List (String × List String)) :
    mapGet (os.foldl (fun m owner => mapSet m owner.String (mapGet m owner.String ++ [pat])) m) s
      = mapGet m s ++ (os.filter (fun o => o.String == s)).map (fun _ => pat) := by
  induction os generalizing m with
  | nil => simp
  | cons o os ih =>
    simp only [List.foldl_cons, ih, mapGet_step, List.filter_cons]
    by_cases h : (o.String == s) = true
    · simp [h]
    · simp [h]

theorem isSome_owners (os : List Owner) (pat s : String) (m : List (String × List String)) :
    (List.lookup s
        (os.foldl (fun m owner => mapSet m owner.String (mapGet m owner.String ++ [pat])) m)).isSome
      = ((List.lookup s m).isSome || os.any (fun o => o.String == s)) := by
  induction os generalizing m with
  | nil => simp
  | cons o os ih =>
    simp only [List.foldl_cons, ih, isSome_step, List.any_cons, Bool.or_assoc]

theorem nodup_owners (os : List Owner) (pat : String) (m : List (String × List String))
    (h : (m.map Prod.fst).Nodup) :
    ((os.foldl (fun m owner => mapSet m owner.String (mapGet m owner.String ++ [pat])) m).map
      Prod.fst).Nodup := by
  induction os generalizing m with
  | nil => simpa using h
  | cons o os ih =>
    simp only [List.foldl_cons]
    exact ih _ (mapSet_keys_nodup _ _ _ h)

theorem mapGet_buildUsers (R : Ruleset) (s : String) (m : List (String × List String)) :
    mapGet (buildUsers R m) s = mapGet m s ++ patternsOf R s := by
  unfold buildUsers patternsOf
  induction R generalizing m with
  | nil => simp
  | cons r R ih =>
    simp only [List.foldl_cons, List.flatMap_cons]
    rw [ih, mapGet_owners, List.append_assoc]

theorem isSome_buildUsers (R : Ruleset) (s : String) (m : List (String × List String)) :
    (List.lookup s (buildUsers R m)).isSome
      = ((List.lookup s m).isSome || R.any (fun r => r.Owners.any (fun o => o.String == s))) := by
  unfold buildUsers
  induction R generalizing m with
  | nil => simp
  | cons r R ih =>
    simp only [List.foldl_cons, List.any_cons]
    rw [ih, isSome_owners, Bool.or_assoc]

theorem nodup_buildUsers (R : Ruleset) (m : List (String × List String))
    (h : (m.map Prod.fst).Nodup) : ((buildUsers R m).map Prod.fst).Nodup := by
  unfold buildUsers
  induction R generalizing m with
  | nil => simpa using h
  | cons r R ih =>
    simp only [List.foldl_cons]
    exact ih _ (nodup_owners _ _ _ h)

/-! ## Auxiliary lemmas: counting, the last match, trimming -/

theorem count_partition (normalize : String → Option String) (R : Ruleset) (F : List String)
    (cs : List String) :
    (cs.filterMap (fun p =>
        (getFileOwners normalize R p F).filter (fun f => !f.Owners.isEmpty))).length
      + (cs.filter (fun p =>
        (getFileOwners normalize R p F).any (fun f => f.Owners.isEmpty))).length
      = (cs.filter (fun p => (Ruleset.Match normalize R p).isOk)).length := by
  induction cs with
  | nil => rfl
  | cons c cs ih =>
    have hs := getFileOwners_isSome normalize R c F
    rw [List.filterMap_cons, List.filter_cons, List.filter_cons]
    cases hg : getFileOwners normalize R c F with
    | none =>
      rw [hg] at hs
      have hk : (Ruleset.Match normalize R c).isOk = false := by simpa using hs.symm
      have e1 : Option.filter (fun f : File => !f.Owners.isEmpty) (none : Option File) = none := rfl
      have e2 : Option.any (fun f : File => f.Owners.isEmpty) (none : Option File) = false := rfl
      simp only [hg, e1, e2, hk, Bool.false_eq_true, if_false]
      exact ih
    | some f =>
      rw [hg] at hs
      have hk : (Ruleset.Match normalize R c).isOk = true := by simpa using hs.symm
      cases ho : f.Owners with
      | nil =>
        have e1 : Option.filter (fun f : File => !f.Owners.isEmpty) (some f) = none := by
          simp [Option.filter, ho]
        have e2 : Option.any (fun f : File => f.Owners.isEmpty) (some f) = true := by
          simp [Option.any, ho]
        simp only [hg, e1, e2, hk, if_true, List.length_cons]
        omega
      | cons a as =>
        have e1 : Option.filter (fun f : File => !f.Owners.isEmpty) (some f) = some f := by
          simp [Option.filter, ho]
        have e2 : Option.any (fun f : File => f.Owners.isEmpty) (some f) = false := by
          simp [Option.any, ho]
        simp only [hg, e1, e2, hk, if_true, Bool.false_eq_true, if_false, List.length_cons]
        omega

theorem find_last (P : Rule → Bool) (R : List Rule) (h : ∃ r ∈ R, P r = true) :
    ∃ pre r post, R = pre ++ r :: post ∧ P r = true ∧ (∀ x ∈ post, P x = false)
      ∧ R.reverse.find? P = some r := by
  induction R using List.reverseRecOn with
  | nil => simp at h
  | append_singleton init a ih =>
    by_cases ha : P a = true
    · exact ⟨init, a, [], rfl, ha, by simp, by simp [List.find?_cons, ha]⟩
    · have hex : ∃ r ∈ init, P r = true := by
        obtain ⟨r, hr, hp⟩ := h
        rcases List.mem_append.mp hr with hr | hr
        · exact ⟨r, hr, hp⟩
        · simp at hr; subst hr; exact absurd hp ha
      obtain ⟨pre, r, post, heq, hp, hpost, hfind⟩ := ih hex
      refine ⟨pre, r, post ++ [a], by simp [heq], hp, ?_, ?_⟩
      · intro x hx
        rcases List.mem_append.mp hx with hx | hx
        · exact hpost x hx
        · simp at hx; subst hx; simpa using ha
      · simp [List.find?_cons, ha, hfind]

theorem Match_mem (normalize : String → Option String) (R : Ruleset) (p : String) (r : Rule)
    (h : Ruleset.Match normalize R p = .ok (some r)) : r ∈ R := by
  unfold Ruleset.Match at h
  split at h
  · simp at h
  · simp only [Except.ok.injEq] at h
    exact List.mem_reverse.mp (List.mem_of_find?_eq_some h)

theorem trimLeft_at_data (s : String) :
    (trimLeft s "@").data = s.data.dropWhile (fun c => decide (c = '@')) := by
  unfold trimLeft
  have : (fun c => "@".data.contains c) = (fun c : Char => decide (c = '@')) := by
    funext c
    show ['@'].contains c = decide (c = '@')
    simp
  simp [this]

theorem stripOneAt_cons_at (rest : List Char) : stripOneAt ⟨'@' :: rest⟩ = ⟨rest⟩ := rfl

theorem stripOneAt_cons_ne (c : Char) (rest : List Char) (h : c ≠ '@') :
    stripOneAt ⟨c :: rest⟩ = ⟨c :: rest⟩ := by
  unfold stripOneAt
  split
  · rename_i heq
    simp at heq
    exact absurd heq.1 h
  · rfl

theorem stripOneAt_nil : stripOneAt ⟨[]⟩ = ⟨[]⟩ := rfl

theorem trimLeft_wellFormed (o : Owner) (h : o.wellFormed = true) :
    trimLeft o.String "@" = o.Value := by
  apply String.ext
  rw [trimLeft_at_data]
  obtain ⟨⟨cs⟩⟩ := o
  cases cs with
  | nil => rfl
  | cons c rest =>
    by_cases hc : c = '@'
    · subst hc
      simp only [Owner.wellFormed, Owner.Value, Owner.String, stripOneAt_cons_at] at h ⊢
      cases rest with
      | nil => rfl
      | cons d rest =>
        by_cases hd : d = '@'
        · subst hd; simp at h
        · simp [List.dropWhile_cons, hd]
    · simp only [Owner.Value, Owner.String, stripOneAt_cons_ne c rest hc]
      simp [List.dropWhile_cons, hc]

theorem contains_trimFilters (F : List String) (v : String) :
    (trimFilters F).contains v = F.any (fun f => trimLeft f "@" == v) := by
  unfold trimFilters
  induction F with
  | nil => rfl
  | cons f F ih =>
    simp only [List.map_cons, List.contains_cons, List.any_cons, ih]
    congr 1
    by_cases h : trimLeft f "@" = v
    · simp [h]
    · have h1 : (trimLeft f "@" == v) = false := by simpa using h
      have h2 : (v == trimLeft f "@") = false := by simpa using fun e => h e.symm
      rw [h1, h2]

theorem getFileOwners_full_filter (normalize : String → Option String) (R : Ruleset)
    (F : List String) (p : String)
    (hwf : ∀ r ∈ R, ∀ o ∈ r.Owners, o.wellFormed = true)
    (hF : ∀ s, s ∈ F ↔ s ∈ ownerStrings R) :
    getFileOwners normalize R p (trimFilters F) = getFileOwners normalize R p (trimFilters []) := by
  cases hm : Ruleset.Match normalize R p with
  | error e => rw [getFileOwners_error normalize R p _ e hm, getFileOwners_error normalize R p _ e hm]
  | ok x =>
    cases x with
    | none => rw [getFileOwners_none normalize R p _ hm, getFileOwners_none normalize R p _ hm]
    | some r =>
      have hr := Match_mem normalize R p r hm
      rw [getFileOwners_some normalize R p _ r hm, getFileOwners_some normalize R p _ r hm]
      have h1 : r.Owners.filter (filterMatch (trimFilters F)) = r.Owners := by
        apply List.filter_eq_self.mpr
        intro o ho
        rw [filterMatch_iff]
        right
        have hs : o.String ∈ F := by
          rw [hF]
          unfold ownerStrings
          rw [List.mem_flatMap]
          exact ⟨r, hr, List.mem_map.mpr ⟨o, ho, rfl⟩⟩
        rw [← trimLeft_wellFormed o (hwf r hr o ho)]
        exact List.mem_map.mpr ⟨o.String, hs, rfl⟩
      have h2 : r.Owners.filter (filterMatch (trimFilters [])) = r.Owners :=
        List.filter_eq_self.mpr (fun o _ => filterMatch_nil o)
      rw [h1, h2]

theorem printed_length (fs : FileSystem) (normalize : String → Option String) (R : Ruleset)
    (F : List String) (paths : List String) (st : JsonResponse × List JsonResponse) :
    (paths.foldl (mainStep fs normalize R F) st).2.length
      = st.2.length + (paths.filter fs.isDir).length := by
  induction paths generalizing st with
  | nil => simp
  | cons sp ps ih =>
    simp only [List.foldl_cons, List.filter_cons]
    rw [ih]
    unfold mainStep
    by_cases h : fs.isDir sp = true
    · simp [h]; omega
    · simp [h]

/-- The function `main` prints once per start path that is a directory. -/
theorem main_printed_length (fs : FileSystem) (normalize : String → Option String)
    (R : Ruleset) (F args : List String) :
    (main fs normalize R F args).2.length
      = ((if args.length == 0 then args ++ ["."] else args).filter fs.isDir).length := by
  unfold main
  simp only [printed_length]
  simp

/-! ## The claims -/

/-- C1 — last-match-wins: when `Ruleset.Match` succeeds on `p` (its normalization `q` exists)
and at least one rule matches, the rule set splits as `pre ++ r :: post` where `r` matches and
no rule of `post` does, so `r` is the matching rule with the greatest manifest index
(`pre.length`), and with an empty filter `getFileOwners` returns the file named `p` whose owners
are the string forms of the owners of `r`, in the order of `r`. -/
theorem C1_last_match_wins (normalize : String → Option String) (R : Ruleset) (p q : String)
    (hq : normalize p = some q) (hex : ∃ r ∈ R, r.matcher q = true) :
    ∃ pre r post, R = pre ++ r :: post ∧ r.matcher q = true
      ∧ (∀ x ∈ post, x.matcher q = false)
      ∧ Ruleset.Match normalize R p = .ok (some r)
      ∧ getFileOwners normalize R p []
          = some { Name := p, Owners := r.Owners.map Owner.String } := by
  obtain ⟨pre, r, post, heq, hr, hpost, hfind⟩ := find_last (fun r => r.matcher q) R hex
  have hm : Ruleset.Match normalize R p = .ok (some r) := by
    simp [Ruleset.Match, hq, hfind]
  refine ⟨pre, r, post, heq, hr, hpost, hm, ?_⟩
  rw [getFileOwners_some normalize R p [] r hm]
  have : r.Owners.filter (filterMatch []) = r.Owners :=
    List.filter_eq_self.mpr (fun o _ => filterMatch_nil o)
  rw [this]

/-- Witness of C1: for the rules `[* @default, *.go @go-owners dev@example.com]`, both matching
`main.go`, the result is the owner list of the second rule, not that of the first and not a
union. -/
theorem C1_last_match_wins_witness :
    exNormalize "main.go" = some "main.go"
      ∧ (∃ r ∈ [ruleDefault, ruleGo], r.matcher "main.go" = true)
      ∧ ruleDefault.matcher "main.go" = true ∧ ruleGo.matcher "main.go" = true
      ∧ (∃ pre r post, [ruleDefault, ruleGo] = pre ++ r :: post ∧ r.matcher "main.go" = true
          ∧ (∀ x ∈ post, x.matcher "main.go" = false)
          ∧ Ruleset.Match exNormalize [ruleDefault, ruleGo] "main.go" = .ok (some r)
          ∧ getFileOwners exNormalize [ruleDefault, ruleGo] "main.go" []
              = some { Name := "main.go", Owners := r.Owners.map Owner.String })
      ∧ getFileOwners exNormalize [ruleDefault, ruleGo] "main.go" []
          = some { Name := "main.go", Owners := ["@go-owners", "dev@example.com"] } :=
  ⟨rfl, ⟨ruleDefault, by simp, rfl⟩, rfl, by decide,
   C1_last_match_wins exNormalize [ruleDefault, ruleGo] "main.go" "main.go" rfl
     ⟨ruleDefault, by simp, rfl⟩,
   by decide⟩

/-- C2 (as stated) fails: in the example manifest `README.md` is governed by `* @default`, a
rule with one owner; under the filter `@go-owners` that owner is filtered out, and `main`
appends `README.md` to the unowned list. -/
theorem C2_counterexample :
    Ruleset.Match exNormalize exRules "README.md" = .ok (some ruleDefault)
      ∧ ruleDefault.Owners = [⟨"@default"⟩]
      ∧ (∀ o ∈ ruleDefault.Owners, o.Value ∉ trimFilters ["@go-owners"])
      ∧ "README.md" ∈ (main exFs exNormalize exRules ["@go-owners"] ["README.md"]).1.Unowned :=
  ⟨rfl, rfl, by decide, by decide⟩

/-- C2 (amended) — a file that `main` resolves, whose governing rule has none of its owners in
the non-empty filter set, is appended to the unowned list and no entry of the owned list bears
its name: the report classifies a file by its filtered owner list. -/
theorem C2_filtered_out_is_unowned (fs : FileSystem) (normalize : String → Option String)
    (R : Ruleset) (F args : List String) (p : String) (r : Rule)
    (hF : F ≠ []) (hp : p ∈ candidates fs args)
    (hm : Ruleset.Match normalize R p = .ok (some r))
    (hout : ∀ o ∈ r.Owners, o.Value ∉ trimFilters F) :
    p ∈ (main fs normalize R F args).1.Unowned
      ∧ ∀ f ∈ (main fs normalize R F args).1.OwnedFiles, f.Name ≠ p := by
  have hne : trimFilters F ≠ [] := by
    cases F with
    | nil => exact absurd rfl hF
    | cons a l => simp [trimFilters]
  have hflt : r.Owners.filter (filterMatch (trimFilters F)) = [] := by
    rw [List.filter_eq_nil_iff]
    intro o ho hfm
    rcases (filterMatch_iff _ _).mp hfm with h | h
    · exact hne h
    · exact hout o ho h
  have hg : getFileOwners normalize R p (trimFilters F) = some { Name := p, Owners := [] } := by
    rw [getFileOwners_some normalize R p _ r hm, hflt]
    rfl
  rw [main_fst]
  refine ⟨?_, ?_⟩
  · simp only [List.mem_filter]
    exact ⟨hp, by rw [hg]; rfl⟩
  · intro f hf
    simp only [List.mem_filterMap] at hf
    obtain ⟨c, _, hc⟩ := hf
    intro hname
    cases hgc : getFileOwners normalize R c (trimFilters F) with
    | none => rw [hgc] at hc; simp [Option.filter] at hc
    | some f2 =>
      rw [hgc] at hc
      have hn := getFileOwners_name normalize R c _ f2 hgc
      by_cases he : f2.Owners.isEmpty = true
      · simp [Option.filter, he] at hc
      · simp only [Option.filter, he, Bool.not_false, if_true, Option.some.injEq] at hc
        subst hc
        rw [hn] at hname
        subst hname
        rw [hg] at hgc
        simp only [Option.some.injEq] at hgc
        rw [← hgc] at he
        exact he rfl

/-- Witness of the amended C2 on the example manifest, the filter `@go-owners` and the start
path `README.md`. -/
theorem C2_filtered_out_is_unowned_witness :
    ["@go-owners"] ≠ []
      ∧ "README.md" ∈ candidates exFs ["README.md"]
      ∧ Ruleset.Match exNormalize exRules "README.md" = .ok (some ruleDefault)
      ∧ (∀ o ∈ ruleDefault.Owners, o.Value ∉ trimFilters ["@go-owners"])
      ∧ ("README.md" ∈ (main exFs exNormalize exRules ["@go-owners"] ["README.md"]).1.Unowned
        ∧ ∀ f ∈ (main exFs exNormalize exRules ["@go-owners"] ["README.md"]).1.OwnedFiles,
            f.Name ≠ "README.md") :=
  ⟨by decide, by decide, rfl, by decide,
   C2_filtered_out_is_unowned exFs exNormalize exRules ["@go-owners"] ["README.md"] "README.md"
     ruleDefault (by decide) (by decide) rfl (by decide)⟩

/-- C3 (as stated) fails: the filter token `@@go-owners` with a leading `@` stripped is
`@go-owners`, which differs from the owner token `@go-owners` with a leading `@` stripped,
yet `main` keeps that owner of the governing rule of `main.go`. -/
theorem C3_counterexample :
    stripOneAt "@@go-owners" ≠ stripOneAt (Owner.String ⟨"@go-owners"⟩)
      ∧ Ruleset.Match exNormalize exRules "main.go" = .ok (some ruleGo)
      ∧ (⟨"@go-owners"⟩ : Owner) ∈ ruleGo.Owners
      ∧ (main exFs exNormalize exRules ["@@go-owners"] ["main.go"]).1.OwnedFiles
          = [{ Name := "main.go", Owners := ["@go-owners"] }] :=
  ⟨by decide, rfl, by decide, by decide⟩

/-- C3 (amended) — filter comparison: with the filter tokens `F` of the command line trimmed as
`main` trims them, the owner list of a file governed by rule `r` keeps an owner `o` of `r`
exactly when some token of `F` with all its leading `@` characters stripped equals the owner
token of `o` with a leading `@` stripped (every owner when `F` is empty). -/
theorem C3_filter_comparison (normalize : String → Option String) (R : Ruleset) (p : String)
    (F : List String) (r : Rule) (hm : Ruleset.Match normalize R p = .ok (some r)) :
    getFileOwners normalize R p (trimFilters F)
      = some { Name := p,
               Owners := (r.Owners.filter (fun o =>
                 F.isEmpty || F.any (fun f => trimLeft f "@" == stripOneAt o.String))).map
                   Owner.String } := by
  rw [getFileOwners_some normalize R p _ r hm]
  have : filterMatch (trimFilters F)
      = (fun o => F.isEmpty || F.any (fun f => trimLeft f "@" == stripOneAt o.String)) := by
    funext o
    rw [filterMatch_eq, contains_trimFilters]
    cases F <;> rfl
  rw [this]

/-- Witness of the amended C3: the tokens `@@go-owners` and `go-owners` both keep the owner
`@go-owners` of the governing rule of `main.go` and drop `dev@example.com`. -/
theorem C3_filter_comparison_witness :
    Ruleset.Match exNormalize exRules "main.go" = .ok (some ruleGo)
      ∧ getFileOwners exNormalize exRules "main.go" (trimFilters ["@@go-owners"])
          = some { Name := "main.go", Owners := ["@go-owners"] } :=
  ⟨rfl, (C3_filter_comparison exNormalize exRules "main.go" ["@@go-owners"] ruleGo rfl).trans
    (by decide)⟩

/-- C4 — filter idempotence: for a rule set whose owner tokens have the manifest shape, running
`main` with a filter list that holds exactly the owner strings of the rule set yields the same
owned list and the same unowned list as running it without a filter, hence the same
owned/unowned partition of the paths. -/
theorem C4_filter_idempotence (fs : FileSystem) (normalize : String → Option String)
    (R : Ruleset) (F args : List String)
    (hwf : ∀ r ∈ R, ∀ o ∈ r.Owners, o.wellFormed = true)
    (hF : ∀ s, s ∈ F ↔ s ∈ ownerStrings R) :
    (main fs normalize R F args).1.OwnedFiles = (main fs normalize R [] args).1.OwnedFiles
      ∧ (main fs normalize R F args).1.Unowned = (main fs normalize R [] args).1.Unowned
      ∧ (∀ p, (∃ f ∈ (main fs normalize R F args).1.OwnedFiles, f.Name = p)
            ↔ ∃ f ∈ (main fs normalize R [] args).1.OwnedFiles, f.Name = p)
      ∧ (∀ p, p ∈ (main fs normalize R F args).1.Unowned
            ↔ p ∈ (main fs normalize R [] args).1.Unowned) := by
  have hfun : (fun p => getFileOwners normalize R p (trimFilters F))
      = (fun p => getFileOwners normalize R p (trimFilters [])) :=
    funext (fun p => getFileOwners_full_filter normalize R F p hwf hF)
  have hown : (main fs normalize R F args).1.OwnedFiles
      = (main fs normalize R [] args).1.OwnedFiles := by
    rw [main_fst, main_fst]
    show List.filterMap (fun p => Option.filter (fun f => !f.Owners.isEmpty)
        ((fun p => getFileOwners normalize R p (trimFilters F)) p)) _ = _
    rw [hfun]
  have hun : (main fs normalize R F args).1.Unowned
      = (main fs normalize R [] args).1.Unowned := by
    rw [main_fst, main_fst]
    show List.filter (fun p => Option.any (fun f => f.Owners.isEmpty)
        ((fun p => getFileOwners normalize R p (trimFilters F)) p)) _ = _
    rw [hfun]
  refine ⟨hown, hun, ?_, ?_⟩
  · intro p; rw [hown]
  · intro p; rw [hun]

/-- Witness of C4 on the example manifest, whose owner strings are `@default`, `@go-owners` and
`dev@example.com`, and the walk of `.`. -/
theorem C4_filter_idempotence_witness :
    (∀ r ∈ exRules, ∀ o ∈ r.Owners, o.wellFormed = true)
      ∧ (∀ s, s ∈ ["dev@example.com", "@go-owners", "@default"] ↔ s ∈ ownerStrings exRules)
      ∧ (main exFs exNormalize exRules ["dev@example.com", "@go-owners", "@default"] ["."]).1.OwnedFiles
          = (main exFs exNormalize exRules [] ["."]).1.OwnedFiles
      ∧ (main exFs exNormalize exRules ["dev@example.com", "@go-owners", "@default"] ["."]).1.Unowned
          = (main exFs exNormalize exRules [] ["."]).1.Unowned :=
  have hwf : ∀ r ∈ exRules, ∀ o ∈ r.Owners, o.wellFormed = true := by
    intro r hr o ho
    simp only [exRules, List.mem_cons, List.mem_singleton, List.not_mem_nil, or_false] at hr
    rcases hr with rfl | rfl | rfl
    · simp only [ruleDefault, List.mem_singleton] at ho; subst ho; rfl
    · simp only [ruleGo, List.mem_cons, List.mem_singleton, List.not_mem_nil, or_false] at ho
      rcases ho with rfl | rfl <;> rfl
    · simp [ruleVendor] at ho
  have hF : ∀ s, s ∈ ["dev@example.com", "@go-owners", "@default"] ↔ s ∈ ownerStrings exRules := by
    intro s
    have : ownerStrings exRules = ["@default", "@go-owners", "dev@example.com"] := by decide
    rw [this]
    simp only [List.mem_cons, List.mem_singleton, List.not_mem_nil, or_false]
    tauto
  ⟨hwf, hF,
   (C4_filter_idempotence exFs exNormalize exRules ["dev@example.com", "@go-owners", "@default"]
      ["."] hwf hF).1,
   (C4_filter_idempotence exFs exNormalize exRules ["dev@example.com", "@go-owners", "@default"]
      ["."] hwf hF).2.1⟩

/-- C5 — filter reference definition: when rule `r` governs `p`, `getFileOwners R p F` returns
the file named `p` whose owners are the string forms of exactly those owners of `r` whose value
is in `F` (all owners of `r` when `F` is empty), in the order and with the multiplicities of
`r`; the list is a sublist of the string forms of the owners of `r`, so no owner outside `r`
is added. -/
theorem C5_filter_reference (normalize : String → Option String) (R : Ruleset) (p : String)
    (F : List String) (r : Rule) (h : Ruleset.Match normalize R p = .ok (some r)) :
    getFileOwners normalize R p F
        = some { Name := p,
                 Owners := (r.Owners.filter (fun o => F.isEmpty || F.contains o.Value)).map
                   Owner.String }
      ∧ (F = [] → getFileOwners normalize R p F
          = some { Name := p, Owners := r.Owners.map Owner.String })
      ∧ ((r.Owners.filter (fun o => F.isEmpty || F.contains o.Value)).map Owner.String).Sublist
          (r.Owners.map Owner.String) := by
  have hfm : filterMatch F = (fun o => F.isEmpty || F.contains o.Value) :=
    funext (filterMatch_eq F)
  refine ⟨?_, ?_, (List.filter_sublist _).map _⟩
  · rw [getFileOwners_some normalize R p F r h, hfm]
  · intro hF
    subst hF
    rw [getFileOwners_some normalize R p [] r h]
    have : r.Owners.filter (filterMatch []) = r.Owners :=
      List.filter_eq_self.mpr (fun o _ => filterMatch_nil o)
    rw [this]

/-- Witness of C5: in the example manifest `main.go` is governed by the `*.go` rule, and the
filter `go-owners` keeps `@go-owners` and drops `dev@example.com`. -/
theorem C5_filter_reference_witness :
    Ruleset.Match exNormalize exRules "main.go" = .ok (some ruleGo)
      ∧ getFileOwners exNormalize exRules "main.go" ["go-owners"]
          = some { Name := "main.go", Owners := ["@go-owners"] } :=
  ⟨rfl, (C5_filter_reference exNormalize exRules "main.go" ["go-owners"] ruleGo rfl).1.trans
    (by decide)⟩

/-- C6 — unowned invariant: when `Ruleset.Match` succeeds without a rule (no rule matches `p`),
and likewise when the governing rule has an empty owner list, `getFileOwners` returns, for every
filter, a non-nil file named `p` with an empty owner list; recording that result appends `p` to
`Unowned` and changes nothing else of the report. -/
theorem C6_unowned_shape (normalize : String → Option String) (R : Ruleset) (p : String)
    (F : List String) (res : JsonResponse)
    (h : Ruleset.Match normalize R p = .ok none
      ∨ ∃ r, Ruleset.Match normalize R p = .ok (some r) ∧ r.Owners = []) :
    getFileOwners normalize R p F = some { Name := p, Owners := [] }
      ∧ recordFile res (getFileOwners normalize R p F)
          = { Users := res.Users, OwnedFiles := res.OwnedFiles, Unowned := res.Unowned ++ [p] } := by
  have hg : getFileOwners normalize R p F = some { Name := p, Owners := [] } := by
    rcases h with h | ⟨r, h, hr⟩
    · exact getFileOwners_none normalize R p F h
    · rw [getFileOwners_some normalize R p F r h, hr]
      rfl
  refine ⟨hg, ?_⟩
  rw [hg]
  rfl

/-- Witness of C6: without a catch-all rule `README.md` matches no rule, and in the example
manifest `vendor/lib.go` is governed by the rule `/vendor/` that has no owners; both resolve to
the same shape and both land in `Unowned`. -/
theorem C6_unowned_shape_witness :
    (Ruleset.Match exNormalize exRulesGo "README.md" = .ok none
      ∧ getFileOwners exNormalize exRulesGo "README.md" ["go-owners"]
          = some { Name := "README.md", Owners := [] }
      ∧ recordFile NewJsonResponse (getFileOwners exNormalize exRulesGo "README.md" ["go-owners"])
          = { Users := [], OwnedFiles := [], Unowned := ["README.md"] })
    ∧ (Ruleset.Match exNormalize exRules "vendor/lib.go" = .ok (some ruleVendor)
      ∧ ruleVendor.Owners = []
      ∧ getFileOwners exNormalize exRules "vendor/lib.go" []
          = some { Name := "vendor/lib.go", Owners := [] }
      ∧ recordFile NewJsonResponse (getFileOwners exNormalize exRules "vendor/lib.go" [])
          = { Users := [], OwnedFiles := [], Unowned := ["vendor/lib.go"] }) :=
  ⟨⟨rfl, C6_unowned_shape exNormalize exRulesGo "README.md" ["go-owners"] NewJsonResponse
      (Or.inl rfl)⟩,
   ⟨rfl, rfl, C6_unowned_shape exNormalize exRules "vendor/lib.go" [] NewJsonResponse
      (Or.inr ⟨ruleVendor, rfl, rfl⟩)⟩⟩

/-- C7 — users index: the `Users` map of the report of `main` is built from the rule set alone
(the same for every file system, filter and argument list); its keys are unique; for every
string `s` the entry `users[s]` is the list of raw patterns of the rules that list `s` as an
owner, in manifest order, one entry per occurrence of `s` in a rule's owner list; and `s` is a
key exactly when it is the string form of an owner of some rule. -/
theorem C7_users_index (fs : FileSystem) (normalize : String → Option String) (R : Ruleset)
    (F args : List String) :
    (main fs normalize R F args).1.Users = buildUsers R []
      ∧ ((buildUsers R []).map Prod.fst).Nodup
      ∧ ∀ s, mapGet (buildUsers R []) s = patternsOf R s
          ∧ ((List.lookup s (buildUsers R [])).isSome = true
              ↔ ∃ r ∈ R, ∃ o ∈ r.Owners, o.String = s) := by
  refine ⟨by rw [main_fst], nodup_buildUsers R [] (by simp), fun s => ⟨?_, ?_⟩⟩
  · rw [mapGet_buildUsers]
    simp [mapGet]
  · rw [isSome_buildUsers]
    simp [List.any_eq_true]

/-- C8 — per-path error skip: when `Ruleset.Match` fails on `p`, `getFileOwners` returns nil
for every filter; recording it leaves the report unchanged, both for a start path that is not a
directory and for a walked file entry; and the run goes on: the loop over the start paths and
the walk over the entries end in the state they reach without `p`. -/
theorem C8_error_skip (fs : FileSystem) (normalize : String → Option String) (R : Ruleset)
    (F : List String) (p e : String) (h : Ruleset.Match normalize R p = .error e) :
    getFileOwners normalize R p F = none
      ∧ (∀ res, recordFile res (getFileOwners normalize R p F) = res)
      ∧ (∀ res, walkCallback normalize R F res (p, false) = res)
      ∧ (∀ res es₁ es₂, (es₁ ++ (p, false) :: es₂).foldl (walkCallback normalize R F) res
          = (es₁ ++ es₂).foldl (walkCallback normalize R F) res)
      ∧ (fs.isDir p = false → ∀ st, mainStep fs normalize R F st p = st)
      ∧ (fs.isDir p = false → ∀ pre post : List String, pre ++ post ≠ [] →
          main fs normalize R F (pre ++ p :: post) = main fs normalize R F (pre ++ post)) := by
  have hg : ∀ F, getFileOwners normalize R p F = none :=
    fun F => getFileOwners_error normalize R p F e h
  have hcb : ∀ res, walkCallback normalize R F res (p, false) = res := by
    intro res
    unfold walkCallback
    by_cases h1 : (p == ".git") = true
    · simp [h1]
    · simp [h1, hg, recordFile]
  have hstep : ∀ F, fs.isDir p = false → ∀ st, mainStep fs normalize R F st p = st := by
    intro F hd st
    unfold mainStep
    simp [hd, hg, recordFile]
  refine ⟨hg F, ?_, hcb, ?_, hstep F, ?_⟩
  · intro res
    rw [hg]
    rfl
  · intro res es₁ es₂
    rw [List.foldl_append, List.foldl_cons, hcb, ← List.foldl_append]
  · intro hd pre post hne
    have hl1 : ((pre ++ p :: post).length == 0) = false := by simp
    have hl2 : ((pre ++ post).length == 0) = false := by
      cases hpp : pre ++ post with
      | nil => exact absurd hpp hne
      | cons a l => simp
    unfold main
    simp only [hl1, hl2, Bool.false_eq_true, if_false]
    rw [List.foldl_append, List.foldl_cons, hstep _ hd, ← List.foldl_append]

/-- Witness of C8: `../x` lies outside the root, so its match fails; it is skipped and the run
over `main.go`, `../x`, `README.md` equals the run over `main.go`, `README.md`. -/
theorem C8_error_skip_witness :
    Ruleset.Match exNormalize exRules "../x" = .error "path outside the manifest root"
      ∧ exFs.isDir "../x" = false
      ∧ getFileOwners exNormalize exRules "../x" [] = none
      ∧ main exFs exNormalize exRules [] (["main.go"] ++ "../x" :: ["README.md"])
          = main exFs exNormalize exRules [] (["main.go"] ++ ["README.md"]) :=
  ⟨rfl, rfl,
   (C8_error_skip exFs exNormalize exRules [] "../x" "path outside the manifest root" rfl).1,
   (C8_error_skip exFs exNormalize exRules [] "../x" "path outside the manifest root"
      rfl).2.2.2.2.2 rfl ["main.go"] ["README.md"] (by simp)⟩

/-- C9 — owned/unowned partition: with `cs` the paths on which `main` resolves owners, the
owned list is, in order, the resolved files with a non-empty owner list, the unowned list is,
in order, the paths whose resolved file has an empty owner list; every resolved file is named
by its path as supplied; a path whose match fails contributes nothing, every other path exactly
one entry to exactly one of the two lists, so the two lengths add up to the number of paths
whose match succeeded. -/
theorem C9_partition (fs : FileSystem) (normalize : String → Option String) (R : Ruleset)
    (F args : List String) :
    (main fs normalize R F args).1.OwnedFiles
        = (candidates fs args).filterMap (fun p =>
            (getFileOwners normalize R p (trimFilters F)).filter (fun f => !f.Owners.isEmpty))
      ∧ (main fs normalize R F args).1.Unowned
        = (candidates fs args).filter (fun p =>
            (getFileOwners normalize R p (trimFilters F)).any (fun f => f.Owners.isEmpty))
      ∧ (∀ p f, getFileOwners normalize R p (trimFilters F) = some f → f.Name = p)
      ∧ (main fs normalize R F args).1.OwnedFiles.length
          + (main fs normalize R F args).1.Unowned.length
        = ((candidates fs args).filter (fun p => (Ruleset.Match normalize R p).isOk)).length := by
  rw [main_fst]
  exact ⟨rfl, rfl, fun p f => getFileOwners_name normalize R p _ f,
    count_partition normalize R _ _⟩

/-- C10 (the code at the failing inputs): for the single start path `main.go`, a file, `main`
records the result and prints nothing; for `main.go`, `.`, `README.md` it prints once, after the
directory `.`, a value without the entry of `README.md` that the final report holds; for `.`,
`.` it prints twice. -/
theorem C10_print_per_directory :
    ((main exFs exNormalize exRules [] ["main.go"]).2 = []
        ∧ (main exFs exNormalize exRules [] ["main.go"]).1.OwnedFiles
            = [{ Name := "main.go", Owners := ["@go-owners", "dev@example.com"] }])
      ∧ ((main exFs exNormalize exRules [] ["main.go", ".", "README.md"]).2.length = 1
        ∧ (main exFs exNormalize exRules [] ["main.go", ".", "README.md"]).2.map
            (fun res => res.OwnedFiles.length) = [3]
        ∧ (main exFs exNormalize exRules [] ["main.go", ".", "README.md"]).1.OwnedFiles.length = 4)
      ∧ (main exFs exNormalize exRules [] [".", "."]).2.length = 2 := by
  decide

end CodeownersJson
